import Mathlib

/-!
Verification of the tree-tool repository's core renderer (`src/tree.js`).

The development shallowly embeds the recursive directory-walking and
line-rendering algorithm of `tree.js`:

* `FSEntry` models the filesystem seen by the walker: a file, a readable
  directory with its enumerated children (in the filesystem's native
  enumeration order), or a directory whose `readdirSync` throws
  (permission denied, removed mid-walk, ...).
* `Symbols`, `asciiSymbols`, `unicodeSymbols`, `treeSymbols` embed the
  glyph tables selected from `useAscii` (tree.js lines 52-65).
* `localeCompareEn` models `String.prototype.localeCompare(that, "en")`
  for the character repertoire the tool manipulates.
* `sortEntries` embeds `Array.prototype.sort` with the comparator of
  tree.js lines 93-102: ECMAScript specifies a stable sort, and for a
  consistent comparator the stable sort result is unique, so any stable
  sorting algorithm is a faithful embedding; a stable insertion sort is
  used so that terms compute.
* `buildTree` / `buildItems` embed the recursive `buildTree` closure
  (tree.js lines 75-134); `console.error` reports become the second
  component of the result (the error side channel), holding the paths
  whose enumeration failed.
-/

set_option maxHeartbeats 1000000

/-- The four tree-drawing glyphs, `symbols` in tree.js. -/
structure Symbols where
  vertical : String
  branch : String
  corner : String
  space : String
  deriving DecidableEq, Repr

/-- The ASCII glyph object of tree.js lines 54-59. -/
def asciiSymbols : Symbols :=
  { vertical := "|   ", branch := "|-- ", corner := "\\-- ", space := "    " }

/-- The Unicode glyph object of tree.js lines 60-65. -/
def unicodeSymbols : Symbols :=
  { vertical := "│   ", branch := "├── ", corner := "└── ", space := "    " }

/-- Glyph selection from `useAscii` (tree.js line 53: `useAscii ? ... : ...`). -/
def treeSymbols (useAscii : Bool) : Symbols :=
  if useAscii then asciiSymbols else unicodeSymbols

/-- A filesystem node as observed by the walker.  `dir` lists the children in
the filesystem's native (`readdirSync`) enumeration order; `baddir` is a
directory whose enumeration throws when the walker tries to read it. -/
inductive FSEntry : Type where
  | file : String → FSEntry
  | dir : String → List FSEntry → FSEntry
  | baddir : String → FSEntry

/-- The entry's name as returned by `readdirSync`. -/
def FSEntry.name : FSEntry → String
  | .file n => n
  | .dir n _ => n
  | .baddir n => n

/-- `fs.statSync(itemPath).isDirectory()` for an entry present in the model. -/
def FSEntry.isDirectory : FSEntry → Bool
  | .file _ => false
  | .dir _ _ => true
  | .baddir _ => true

/-- Primary collation weight of a character under the "en" (root) collation,
modelling ICU's ordering on the tool's character repertoire: punctuation and
symbols sort before digits, digits before letters, and letters compare
case-insensitively at the primary level. -/
def charPrimary (c : Char) : Nat :=
  if c.isAlpha then 0x20000 + c.toLower.toNat
  else if c.isDigit then 0x10000 + c.toNat
  else c.toNat

/-- Tertiary collation weight: at the tertiary level lowercase sorts before
uppercase under the "en" collation. -/
def charTertiary (c : Char) : Nat :=
  if c.isUpper then 1 else 0

/-- Lexicographic comparison of weight sequences. -/
def weightsCmp : List Nat → List Nat → Ordering
  | [], [] => .eq
  | [], _ :: _ => .lt
  | _ :: _, [] => .gt
  | a :: as, b :: bs =>
    match compare a b with
    | .eq => weightsCmp as bs
    | o => o

/-- Full "en" collation of two strings: primary weight sequences first, and
only when those tie, the tertiary (case) weight sequences. -/
def strCollate (a b : String) : Ordering :=
  (weightsCmp (a.data.map charPrimary) (b.data.map charPrimary)).then
    (weightsCmp (a.data.map charTertiary) (b.data.map charTertiary))

/-- Model of `a.localeCompare(b, "en")` (tree.js line 101): negative, zero or
positive according to the "en" collation. -/
def localeCompareEn (a b : String) : Int :=
  match strCollate a b with
  | .lt => -1
  | .eq => 0
  | .gt => 1

/-- The sort comparator of tree.js lines 93-102: directories strictly before
files, and entries of the same kind by `localeCompare(·, "en")` on names. -/
def entryCmp (a b : FSEntry) : Int :=
  if a.isDirectory && !b.isDirectory then -1
  else if !a.isDirectory && b.isDirectory then 1
  else localeCompareEn a.name b.name

/-- Insert `a` into an already sorted list, after every entry that the
comparator places strictly before `a` and before everything else; entries
comparing equal to `a` that were enumerated before it thus stay before it,
which is exactly the stability guarantee of `Array.prototype.sort`. -/
def insertEntry (a : FSEntry) : List FSEntry → List FSEntry
  | [] => [a]
  | b :: bs => if entryCmp b a < 0 then b :: insertEntry a bs else a :: b :: bs

/-- Stable sort by the comparator of tree.js lines 93-102, embedding
`sortedItems = items.filter(...).sort((a, b) => ...)`'s sort step. -/
def sortEntries : List FSEntry → List FSEntry
  | [] => []
  | a :: as => insertEntry a (sortEntries as)

/-- The filter step of tree.js lines 85-92: when `showFiles` is false keep
only directories, otherwise keep every entry. -/
def keptChildren (showFiles : Bool) (children : List FSEntry) : List FSEntry :=
  children.filter fun item => if !showFiles then item.isDirectory else true

/-- `sortedItems` of tree.js lines 84-102: the filtered children, stably
sorted by the comparator. -/
def sortedChildren (showFiles : Bool) (children : List FSEntry) : List FSEntry :=
  sortEntries (keptChildren showFiles children)

theorem insertEntry_perm (a : FSEntry) (l : List FSEntry) :
    List.Perm (insertEntry a l) (a :: l) := by
  induction l with
  | nil => rfl
  | cons b bs ih =>
    simp only [insertEntry]
    by_cases h : entryCmp b a < 0
    · simp only [h, if_pos]
      exact (ih.cons b).trans (List.Perm.swap a b bs)
    · simp only [h, if_neg, if_false]
      exact List.Perm.refl _

theorem sortEntries_perm (l : List FSEntry) : List.Perm (sortEntries l) l := by
  induction l with
  | nil => rfl
  | cons a as ih => exact (insertEntry_perm a (sortEntries as)).trans (ih.cons a)

theorem sizeOf_filter_le (p : FSEntry → Bool) (l : List FSEntry) :
    sizeOf (l.filter p) ≤ sizeOf l := by
  induction l with
  | nil => simp
  | cons a t ih =>
    simp only [List.filter_cons]
    by_cases h : p a
    · simp only [h, if_pos, List.cons.sizeOf_spec]
      omega
    · simp only [h, Bool.false_eq_true, if_false, List.cons.sizeOf_spec]
      omega

theorem sizeOf_sortedChildren_lt (sf : Bool) (nm : String) (children : List FSEntry) :
    sizeOf (sortedChildren sf children) < sizeOf (FSEntry.dir nm children) := by
  have h1 : sizeOf (sortedChildren sf children) = sizeOf (keptChildren sf children) :=
    (sortEntries_perm (keptChildren sf children)).sizeOf_eq_sizeOf
  have h2 : sizeOf (keptChildren sf children) ≤ sizeOf children :=
    sizeOf_filter_le _ children
  have h3 : sizeOf (FSEntry.dir nm children) = 1 + sizeOf nm + sizeOf children := by
    simp
  omega

mutual

/-- The recursive `buildTree(currentPath, prefix, isLast, depth)` closure of
tree.js lines 75-134.  The first component of the result is the returned
string; the second lists the paths reported to `console.error` by the
`catch` block (the error side channel), in emission order.  A `file` or
`baddir` node makes `readdirSync(currentPath)` throw, which the `catch`
turns into an empty string plus one report for `currentPath`. -/
def buildTree (showFiles : Bool) (sym : Symbols) (maxDepth : Int)
    (entry : FSEntry) (currentPath : String) (pref : String) (isLast : Bool)
    (depth : Int) : String × List String :=
  if maxDepth ≠ -1 ∧ depth > maxDepth then ("", [])
  else
    match entry with
    | .file _ => ("", [currentPath])
    | .baddir _ => ("", [currentPath])
    | .dir _ children =>
      let sortedItems := sortedChildren showFiles children
      buildItems showFiles sym maxDepth sortedItems sortedItems.length 0
        currentPath pref depth
termination_by sizeOf entry
decreasing_by
  exact sizeOf_sortedChildren_lt showFiles _ children

/-- The `sortedItems.forEach((item, index) => ...)` loop of tree.js lines
107-122, carried out over the remaining items, with `idx` the index of the
head item and `len` the length of the whole sorted list. -/
def buildItems (showFiles : Bool) (sym : Symbols) (maxDepth : Int)
    (items : List FSEntry) (len idx : Nat)
    (currentPath : String) (pref : String) (depth : Int) : String × List String :=
  match items with
  | [] => ("", [])
  | item :: rest =>
    let itemPath := currentPath ++ "/" ++ item.name
    let isLastItem := idx == len - 1
    let connector := if isLastItem then sym.corner else sym.branch
    let line := pref ++ connector ++ item.name ++
      (if item.isDirectory then "/" else "") ++ "\n"
    let sub :=
      if item.isDirectory then
        buildTree showFiles sym maxDepth item itemPath
          (pref ++ (if isLastItem then sym.space else sym.vertical)) isLastItem
          (depth + 1)
      else ("", [])
    let tail := buildItems showFiles sym maxDepth rest len (idx + 1)
      currentPath pref depth
    (line ++ sub.1 ++ tail.1, sub.2 ++ tail.2)
termination_by sizeOf items
decreasing_by
  · simp only [List.cons.sizeOf_spec]
    omega
  · simp only [List.cons.sizeOf_spec]
    omega

end

theorem weightsCmp_swap : ∀ x y : List Nat, weightsCmp x y = (weightsCmp y x).swap
  | [], [] => rfl
  | [], _ :: _ => rfl
  | _ :: _, [] => rfl
  | a :: as, b :: bs => by
    simp only [weightsCmp]
    rw [← Nat.compare_swap b a]
    cases h : compare b a <;>
      simp [Ordering.swap, weightsCmp_swap as bs]

theorem weightsCmp_eq_iff : ∀ x y : List Nat, weightsCmp x y = .eq ↔ x = y
  | [], [] => by simp [weightsCmp]
  | [], _ :: _ => by simp [weightsCmp]
  | _ :: _, [] => by simp [weightsCmp]
  | a :: as, b :: bs => by
    simp only [weightsCmp]
    cases h : compare a b with
    | eq =>
      have hab : a = b := Nat.compare_eq_eq.mp h
      simp [hab, weightsCmp_eq_iff as bs]
    | lt =>
      have hab : a < b := Nat.compare_eq_lt.mp h
      simp only [List.cons.injEq]
      constructor
      · intro hc; cases hc
      · rintro ⟨rfl, -⟩; omega
    | gt =>
      have hab : b < a := Nat.compare_eq_gt.mp h
      simp only [List.cons.injEq]
      constructor
      · intro hc; cases hc
      · rintro ⟨rfl, -⟩; omega

theorem weightsCmp_lt_trans :
    ∀ {x y z : List Nat}, weightsCmp x y = .lt → weightsCmp y z = .lt →
      weightsCmp x z = .lt
  | [], _ :: _, _ :: _, _, _ => rfl
  | a :: as, b :: bs, c :: cs, h1, h2 => by
    cases hab : compare a b with
    | gt => simp [weightsCmp, hab] at h1
    | eq =>
      have hb : a = b := Nat.compare_eq_eq.mp hab
      subst hb
      simp only [weightsCmp, hab] at h1
      cases hac : compare a c with
      | lt => simp [weightsCmp, hac]
      | eq =>
        have hc : a = c := Nat.compare_eq_eq.mp hac
        subst hc
        simp only [weightsCmp, hac] at h2 ⊢
        exact weightsCmp_lt_trans h1 h2
      | gt => simp [weightsCmp, hac] at h2
    | lt =>
      have hab' : a < b := Nat.compare_eq_lt.mp hab
      cases hbc : compare b c with
      | lt =>
        have hbc' : b < c := Nat.compare_eq_lt.mp hbc
        have hac : compare a c = .lt := Nat.compare_eq_lt.mpr (by omega)
        simp [weightsCmp, hac]
      | eq =>
        have hc : b = c := Nat.compare_eq_eq.mp hbc
        subst hc
        simp [weightsCmp, hab]
      | gt => simp [weightsCmp, hbc] at h2

theorem ordering_then_swap (x y : Ordering) : (x.swap).then (y.swap) = (x.then y).swap := by
  cases x <;> rfl

theorem strCollate_swap (a b : String) : strCollate a b = (strCollate b a).swap := by
  unfold strCollate
  rw [weightsCmp_swap (a.data.map charPrimary), weightsCmp_swap (a.data.map charTertiary)]
  exact ordering_then_swap _ _

theorem then_eq_eq {x y : Ordering} : x.then y = .eq ↔ x = .eq ∧ y = .eq := by
  cases x <;> simp [Ordering.then]

theorem strCollate_eq_keys {a b : String} (h : strCollate a b = .eq) :
    a.data.map charPrimary = b.data.map charPrimary ∧
      a.data.map charTertiary = b.data.map charTertiary := by
  unfold strCollate at h
  rcases then_eq_eq.mp h with ⟨h1, h2⟩
  exact ⟨(weightsCmp_eq_iff _ _).mp h1, (weightsCmp_eq_iff _ _).mp h2⟩

theorem strCollate_lt_trans {a b c : String} (h1 : strCollate a b = .lt)
    (h2 : strCollate b c = .lt) : strCollate a c = .lt := by
  unfold strCollate at h1 h2 ⊢
  cases hp1 : weightsCmp (a.data.map charPrimary) (b.data.map charPrimary) with
  | gt => rw [hp1] at h1; cases h1
  | lt =>
    cases hp2 : weightsCmp (b.data.map charPrimary) (c.data.map charPrimary) with
    | gt => rw [hp2] at h2; cases h2
    | lt => rw [weightsCmp_lt_trans hp1 hp2]; rfl
    | eq =>
      have := (weightsCmp_eq_iff _ _).mp hp2
      rw [← this, hp1]
      rfl
  | eq =>
    have hpk := (weightsCmp_eq_iff _ _).mp hp1
    rw [hp1] at h1
    cases hp2 : weightsCmp (b.data.map charPrimary) (c.data.map charPrimary) with
    | gt => rw [hp2] at h2; cases h2
    | lt => rw [hpk, hp2]; rfl
    | eq =>
      rw [hp2] at h2
      rw [hpk, hp2]
      simp only [Ordering.then] at h1 h2 ⊢
      cases ht1 : weightsCmp (a.data.map charTertiary) (b.data.map charTertiary) with
      | gt => rw [ht1] at h1; cases h1
      | eq =>
        have := (weightsCmp_eq_iff _ _).mp ht1
        rw [this]
        exact h2
      | lt =>
        cases ht2 : weightsCmp (b.data.map charTertiary) (c.data.map charTertiary) with
        | gt => rw [ht2] at h2; cases h2
        | lt => exact weightsCmp_lt_trans ht1 ht2
        | eq =>
          have := (weightsCmp_eq_iff _ _).mp ht2
          rw [← this]
          exact ht1

theorem localeCompareEn_swap (a b : String) :
    localeCompareEn a b = -localeCompareEn b a := by
  unfold localeCompareEn
  rw [strCollate_swap a b]
  cases strCollate b a <;> rfl

theorem localeCompareEn_le_iff {a b : String} :
    localeCompareEn a b ≤ 0 ↔ strCollate a b ≠ .gt := by
  unfold localeCompareEn
  cases strCollate a b <;> simp

theorem localeCompareEn_eq_iff {a b : String} :
    localeCompareEn a b = 0 ↔ strCollate a b = .eq := by
  unfold localeCompareEn
  cases strCollate a b <;> simp

theorem strCollate_ne_gt {a b : String} (h : strCollate a b ≠ .gt) :
    strCollate a b = .lt ∨ strCollate a b = .eq := by
  cases hc : strCollate a b
  · exact Or.inl rfl
  · exact Or.inr rfl
  · exact absurd hc h

theorem localeCompareEn_le_trans {a b c : String} (h1 : localeCompareEn a b ≤ 0)
    (h2 : localeCompareEn b c ≤ 0) : localeCompareEn a c ≤ 0 := by
  rw [localeCompareEn_le_iff] at h1 h2 ⊢
  rcases strCollate_ne_gt h1 with hab | hab <;>
    rcases strCollate_ne_gt h2 with hbc | hbc
  · rw [strCollate_lt_trans hab hbc]; intro hc; cases hc
  · rcases strCollate_eq_keys hbc with ⟨k1, k2⟩
    unfold strCollate at hab ⊢
    rw [← k1, ← k2]
    rw [hab]
    intro hc; cases hc
  · rcases strCollate_eq_keys hab with ⟨k1, k2⟩
    unfold strCollate at hbc ⊢
    rw [k1, k2]
    rw [hbc]
    intro hc; cases hc
  · rcases strCollate_eq_keys hab with ⟨k1, k2⟩
    unfold strCollate at hbc ⊢
    rw [k1, k2]
    rw [hbc]
    intro hc; cases hc

theorem entryCmp_swap (a b : FSEntry) : entryCmp a b = -entryCmp b a := by
  unfold entryCmp
  cases ha : a.isDirectory <;> cases hb : b.isDirectory <;>
    simp [localeCompareEn_swap a.name b.name]

theorem entryCmp_le_trans {a b c : FSEntry} (h1 : entryCmp a b ≤ 0)
    (h2 : entryCmp b c ≤ 0) : entryCmp a c ≤ 0 := by
  unfold entryCmp at h1 h2 ⊢
  cases ha : a.isDirectory <;> cases hb : b.isDirectory <;> cases hc : c.isDirectory <;>
    simp [ha, hb, hc] at h1 h2 ⊢ <;>
    first
    | exact localeCompareEn_le_trans h1 h2
    | omega

theorem entryCmp_eq_zero_of_le {a b : FSEntry} (h1 : entryCmp a b ≤ 0)
    (h2 : entryCmp b a ≤ 0) : entryCmp a b = 0 := by
  have := entryCmp_swap a b
  omega

theorem insertEntry_pairwise {a : FSEntry} {l : List FSEntry}
    (hl : l.Pairwise fun x y => entryCmp x y ≤ 0) :
    (insertEntry a l).Pairwise fun x y => entryCmp x y ≤ 0 := by
  induction l with
  | nil => simp [insertEntry]
  | cons b bs ih =>
    rcases List.pairwise_cons.mp hl with ⟨hb, hbs⟩
    simp only [insertEntry]
    by_cases h : entryCmp b a < 0
    · simp only [h, if_pos]
      refine List.pairwise_cons.mpr ⟨?_, ih hbs⟩
      intro x hx
      rcases List.mem_cons.mp ((insertEntry_perm a bs).mem_iff.mp hx) with rfl | hxbs
      · omega
      · exact hb x hxbs
    · simp only [h, if_false]
      have hab : entryCmp a b ≤ 0 := by
        have := entryCmp_swap a b
        omega
      refine List.pairwise_cons.mpr ⟨?_, hl⟩
      intro x hx
      rcases List.mem_cons.mp hx with rfl | hxbs
      · exact hab
      · exact entryCmp_le_trans hab (hb x hxbs)

theorem sortEntries_pairwise (l : List FSEntry) :
    (sortEntries l).Pairwise fun x y => entryCmp x y ≤ 0 := by
  induction l with
  | nil => exact List.Pairwise.nil
  | cons a as ih => exact insertEntry_pairwise ih

/-- Two sorted lists that are permutations of each other and whose elements
never tie under the comparator (distinct comparator keys) are equal: the
stable sort result is unique, whatever enumeration order it started from. -/
theorem sorted_perm_unique :
    ∀ (l₁ l₂ : List FSEntry),
      l₁.Pairwise (fun x y => entryCmp x y ≤ 0) →
      l₂.Pairwise (fun x y => entryCmp x y ≤ 0) →
      List.Perm l₁ l₂ →
      (∀ a ∈ l₁, ∀ b ∈ l₁, entryCmp a b = 0 → a = b) →
      l₁ = l₂
  | [], l₂, _, _, hp, _ => hp.nil_eq
  | a :: t₁, [], _, _, hp, _ => absurd hp.symm (by simp)
  | a :: t₁, b :: t₂, hs₁, hs₂, hp, hkey => by
    rcases List.pairwise_cons.mp hs₁ with ⟨ha, ht₁⟩
    rcases List.pairwise_cons.mp hs₂ with ⟨hb, ht₂⟩
    have hab : a = b := by
      by_cases heq : a = b
      · exact heq
      · have hbmem : b ∈ a :: t₁ := hp.mem_iff.mpr (List.mem_cons_self b t₂)
        have hbt₁ : b ∈ t₁ := by
          rcases List.mem_cons.mp hbmem with h | h
          · exact absurd h.symm heq
          · exact h
        have hamem : a ∈ b :: t₂ := hp.mem_iff.mp (List.mem_cons_self a t₁)
        have hat₂ : a ∈ t₂ := by
          rcases List.mem_cons.mp hamem with h | h
          · exact absurd h heq
          · exact h
        have h1 : entryCmp a b ≤ 0 := ha b hbt₁
        have h2 : entryCmp b a ≤ 0 := hb a hat₂
        exact hkey a (List.mem_cons_self a t₁) b (List.mem_cons_of_mem a hbt₁)
          (entryCmp_eq_zero_of_le h1 h2)
    subst hab
    have hpt : List.Perm t₁ t₂ := hp.cons_inv
    have : t₁ = t₂ :=
      sorted_perm_unique t₁ t₂ ht₁ ht₂ hpt fun x hx y hy h =>
        hkey x (List.mem_cons_of_mem a hx) y (List.mem_cons_of_mem a hy) h
    rw [this]

/-- The per-entry emission step as the spec states it: for each surviving,
sorted entry in order, emit `prefix + connector + name (+ "/" if directory)`
with the corner connector exactly for the last entry of the sibling list and
the branch connector otherwise, and recurse into directory entries with
`depth + 1` and the prefix extended by the space glyph after a last entry and
by the vertical glyph otherwise. -/
def renderSeq (showFiles : Bool) (sym : Symbols) (maxDepth : Int)
    (currentPath : String) (pref : String) (depth : Int) :
    List FSEntry → String × List String
  | [] => ("", [])
  | item :: rest =>
    let isLastItem := rest.isEmpty
    let connector := if isLastItem then sym.corner else sym.branch
    let line := pref ++ connector ++ item.name ++
      (if item.isDirectory then "/" else "") ++ "\n"
    let sub :=
      if item.isDirectory then
        buildTree showFiles sym maxDepth item (currentPath ++ "/" ++ item.name)
          (pref ++ (if isLastItem then sym.space else sym.vertical)) isLastItem
          (depth + 1)
      else ("", [])
    let tail := renderSeq showFiles sym maxDepth currentPath pref depth rest
    (line ++ sub.1 ++ tail.1, sub.2 ++ tail.2)

theorem buildItems_eq_renderSeq (sf : Bool) (sym : Symbols) (md : Int) :
    ∀ (items : List FSEntry) (len idx : Nat) (cp pref : String) (d : Int),
      idx + items.length = len →
      buildItems sf sym md items len idx cp pref d =
        renderSeq sf sym md cp pref d items := by
  intro items
  induction items with
  | nil =>
    intro len idx cp pref d _
    simp [buildItems, renderSeq]
  | cons item rest ih =>
    intro len idx cp pref d h
    have hlast : (idx == len - 1) = rest.isEmpty := by
      cases rest with
      | nil =>
        simp only [List.isEmpty_nil, beq_iff_eq]
        simp only [List.length_cons, List.length_nil] at h
        omega
      | cons r rs =>
        simp only [List.isEmpty_cons]
        simp only [List.length_cons] at h
        have : idx ≠ len - 1 := by omega
        simp [this]
    simp only [buildItems, renderSeq, hlast]
    rw [ih len (idx + 1) cp pref d (by simp only [List.length_cons] at h; omega)]

theorem buildTree_pruned (sf : Bool) (sym : Symbols) (md : Int) (e : FSEntry)
    (cp pref : String) (il : Bool) (d : Int) (h : md ≠ -1 ∧ d > md) :
    buildTree sf sym md e cp pref il d = ("", []) := by
  cases e <;> rw [buildTree] <;> rw [if_pos h]

theorem buildTree_unreadable (sf : Bool) (sym : Symbols) (md : Int) (nm : String)
    (cp pref : String) (il : Bool) (d : Int) (h : ¬(md ≠ -1 ∧ d > md)) :
    buildTree sf sym md (.baddir nm) cp pref il d = ("", [cp]) := by
  rw [buildTree, if_neg h]

theorem buildTree_file (sf : Bool) (sym : Symbols) (md : Int) (nm : String)
    (cp pref : String) (il : Bool) (d : Int) (h : ¬(md ≠ -1 ∧ d > md)) :
    buildTree sf sym md (.file nm) cp pref il d = ("", [cp]) := by
  rw [buildTree, if_neg h]

theorem buildTree_dir (sf : Bool) (sym : Symbols) (md : Int) (nm : String)
    (ch : List FSEntry) (cp pref : String) (il : Bool) (d : Int)
    (h : ¬(md ≠ -1 ∧ d > md)) :
    buildTree sf sym md (.dir nm ch) cp pref il d =
      renderSeq sf sym md cp pref d (sortedChildren sf ch) := by
  rw [buildTree, if_neg h]
  exact buildItems_eq_renderSeq sf sym md (sortedChildren sf ch) _ 0 cp pref d
    (by simp)

theorem sizeOf_lt_of_mem_sortedChildren {x : FSEntry} {sf : Bool} (nm : String)
    {ch : List FSEntry} (hx : x ∈ sortedChildren sf ch) :
    sizeOf x < sizeOf (FSEntry.dir nm ch) := by
  have h1 : x ∈ keptChildren sf ch := (sortEntries_perm _).mem_iff.mp hx
  have h2 : x ∈ ch := (List.mem_filter.mp h1).1
  have h3 : sizeOf x < sizeOf ch := List.sizeOf_lt_of_mem h2
  have h4 : sizeOf (FSEntry.dir nm ch) = 1 + sizeOf nm + sizeOf ch := by simp
  omega

theorem fsentry_sizeOf_pos (e : FSEntry) : 1 ≤ sizeOf e := by
  cases e <;> simp <;> omega

theorem buildTree_depth_irrel_aux (sf : Bool) (sym : Symbols) :
    ∀ (n : Nat) (e : FSEntry), sizeOf e ≤ n →
      ∀ (cp pref : String) (il : Bool) (d₁ d₂ : Int),
        buildTree sf sym (-1) e cp pref il d₁ =
          buildTree sf sym (-1) e cp pref il d₂ := by
  intro n
  induction n with
  | zero =>
    intro e he
    exact absurd he (by have := fsentry_sizeOf_pos e; omega)
  | succ n ih =>
    intro e he cp pref il d₁ d₂
    have hnp : ∀ d : Int, ¬((-1 : Int) ≠ -1 ∧ d > -1) := by simp
    cases e with
    | file s => rw [buildTree_file _ _ _ _ _ _ _ _ (hnp d₁), buildTree_file _ _ _ _ _ _ _ _ (hnp d₂)]
    | baddir s => rw [buildTree_unreadable _ _ _ _ _ _ _ _ (hnp d₁), buildTree_unreadable _ _ _ _ _ _ _ _ (hnp d₂)]
    | dir nm ch =>
      rw [buildTree_dir _ _ _ _ _ _ _ _ _ (hnp d₁), buildTree_dir _ _ _ _ _ _ _ _ _ (hnp d₂)]
      have hmem : ∀ x ∈ sortedChildren sf ch, sizeOf x ≤ n := by
        intro x hx
        have := sizeOf_lt_of_mem_sortedChildren nm hx
        omega
      revert hmem
      generalize sortedChildren sf ch = l
      intro hmem
      induction l with
      | nil => rfl
      | cons item rest ihl =>
        simp only [renderSeq]
        rw [ihl fun x hx => hmem x (List.mem_cons_of_mem item hx)]
        by_cases hd : item.isDirectory
        · rw [hd]
          simp only [if_pos]
          rw [ih item (hmem item (List.mem_cons_self item rest)) _ _ _ (d₁ + 1) (d₂ + 1)]
        · simp only [hd, Bool.false_eq_true, if_false]

/-- When `maxDepth` is the `-1` sentinel, the `depth` counter never influences
the result: no depth pruning occurs at any recursion depth. -/
theorem buildTree_depth_irrel (sf : Bool) (sym : Symbols) (e : FSEntry)
    (cp pref : String) (il : Bool) (d₁ d₂ : Int) :
    buildTree sf sym (-1) e cp pref il d₁ = buildTree sf sym (-1) e cp pref il d₂ :=
  buildTree_depth_irrel_aux sf sym (sizeOf e) e (Nat.le_refl _) cp pref il d₁ d₂

/-- Number of emitted lines in a rendered string: every emitted line ends in
exactly one `'\n'`. -/
def countNL (s : String) : Nat := s.data.count '\n'

/-- Does every character of the string satisfy `p`? -/
def strAll (p : Char → Bool) (s : String) : Bool := s.data.all p

/-- Does every character of each of the four glyphs satisfy `p`? -/
def symAll (p : Char → Bool) (sym : Symbols) : Bool :=
  strAll p sym.vertical && strAll p sym.branch &&
    strAll p sym.corner && strAll p sym.space

mutual

/-- Does every character of every name in the tree satisfy `p`? -/
def namesAll (p : Char → Bool) : FSEntry → Bool
  | .file n => strAll p n
  | .baddir n => strAll p n
  | .dir n ch => strAll p n && namesAllList p ch
termination_by e => sizeOf e

/-- `namesAll` over a list of entries. -/
def namesAllList (p : Char → Bool) : List FSEntry → Bool
  | [] => true
  | e :: rest => namesAll p e && namesAllList p rest
termination_by l => sizeOf l
decreasing_by
  · simp only [List.cons.sizeOf_spec]; omega
  · simp only [List.cons.sizeOf_spec]; omega

end

mutual

/-- The expected number of emitted lines for a subtree, as the spec's count
invariant describes it: entries surviving the filter at this level, plus the
counts of the directory children's own subtrees (files and unreadable
directories contribute zero). -/
def treeLineCount (sf : Bool) : FSEntry → Nat
  | .file _ => 0
  | .baddir _ => 0
  | .dir _ ch => (keptChildren sf ch).length + treeLineCountList sf (keptChildren sf ch)
termination_by e => sizeOf e
decreasing_by
  apply Nat.lt_of_le_of_lt (sizeOf_filter_le _ _)
  simp only [FSEntry.dir.sizeOf_spec]
  omega

/-- Sum of `treeLineCount` over a list of entries. -/
def treeLineCountList (sf : Bool) : List FSEntry → Nat
  | [] => 0
  | e :: rest => treeLineCount sf e + treeLineCountList sf rest
termination_by l => sizeOf l
decreasing_by
  · simp only [List.cons.sizeOf_spec]; omega
  · simp only [List.cons.sizeOf_spec]; omega

end

theorem namesAllList_mem {p : Char → Bool} :
    ∀ {l : List FSEntry}, namesAllList p l = true → ∀ {x}, x ∈ l → namesAll p x = true := by
  intro l
  induction l with
  | nil => intro _ x hx; cases hx
  | cons e rest ih =>
    intro h x hx
    rw [namesAllList] at h
    rcases List.mem_cons.mp hx with rfl | hx'
    · exact (Bool.and_eq_true_iff.mp h).1
    · exact ih (Bool.and_eq_true_iff.mp h).2 hx'

theorem countNL_append (a b : String) : countNL (a ++ b) = countNL a + countNL b := by
  simp [countNL, String.data_append]

theorem countNL_of_all {s : String} (h : strAll (fun c => c != '\n') s = true) :
    countNL s = 0 := by
  rw [countNL, List.count_eq_zero]
  intro hc
  have := List.all_eq_true.mp h _ hc
  simp at this

theorem strAll_append {p : Char → Bool} (a b : String) :
    strAll p (a ++ b) = (strAll p a && strAll p b) := by
  simp [strAll, String.data_append]

theorem namesAll_name {p : Char → Bool} {x : FSEntry} (h : namesAll p x = true) :
    strAll p x.name = true := by
  cases x with
  | file n => rw [namesAll] at h; exact h
  | baddir n => rw [namesAll] at h; exact h
  | dir n ch =>
    rw [namesAll] at h
    exact (Bool.and_eq_true_iff.mp h).1

theorem namesAll_children {p : Char → Bool} {n : String} {ch : List FSEntry}
    (h : namesAll p (.dir n ch) = true) : namesAllList p ch = true := by
  rw [namesAll] at h
  exact (Bool.and_eq_true_iff.mp h).2

theorem symAll_split {p : Char → Bool} {sym : Symbols} (h : symAll p sym = true) :
    strAll p sym.vertical = true ∧ strAll p sym.branch = true ∧
      strAll p sym.corner = true ∧ strAll p sym.space = true := by
  rw [symAll] at h
  rcases Bool.and_eq_true_iff.mp h with ⟨h3, h4⟩
  rcases Bool.and_eq_true_iff.mp h3 with ⟨h5, h6⟩
  rcases Bool.and_eq_true_iff.mp h5 with ⟨h1, h2⟩
  exact ⟨h1, h2, h6, h4⟩

theorem treeLineCountList_eq_sum (sf : Bool) (l : List FSEntry) :
    treeLineCountList sf l = (l.map (treeLineCount sf)).sum := by
  induction l with
  | nil => rw [treeLineCountList]; simp
  | cons e rest ih => rw [treeLineCountList]; simp [ih]

theorem treeLineCountList_perm {sf : Bool} {l₁ l₂ : List FSEntry}
    (h : List.Perm l₁ l₂) : treeLineCountList sf l₁ = treeLineCountList sf l₂ := by
  rw [treeLineCountList_eq_sum, treeLineCountList_eq_sum]
  exact (h.map (treeLineCount sf)).sum_eq

theorem mem_sortedChildren_mem {x : FSEntry} {sf : Bool} {ch : List FSEntry}
    (hx : x ∈ sortedChildren sf ch) : x ∈ ch :=
  (List.mem_filter.mp ((sortEntries_perm _).mem_iff.mp hx)).1

theorem countNL_buildTree_aux (sf : Bool) (sym : Symbols)
    (hsym : symAll (fun c => c != '\n') sym = true) :
    ∀ (n : Nat) (e : FSEntry), sizeOf e ≤ n →
      ∀ (cp pref : String) (il : Bool) (d : Int),
        namesAll (fun c => c != '\n') e = true →
        strAll (fun c => c != '\n') pref = true →
        countNL (buildTree sf sym (-1) e cp pref il d).1 = treeLineCount sf e := by
  rcases symAll_split hsym with ⟨hv, hb, hc, hs⟩
  intro n
  induction n with
  | zero =>
    intro e he
    exact absurd he (by have := fsentry_sizeOf_pos e; omega)
  | succ n ih =>
    intro e he cp pref il d hnames hpref
    have hnp : ∀ d : Int, ¬((-1 : Int) ≠ -1 ∧ d > -1) := by simp
    cases e with
    | file s =>
      rw [buildTree_file _ _ _ _ _ _ _ _ (hnp d), treeLineCount]
      simp [countNL]
    | baddir s =>
      rw [buildTree_unreadable _ _ _ _ _ _ _ _ (hnp d), treeLineCount]
      simp [countNL]
    | dir nm ch =>
      rw [buildTree_dir _ _ _ _ _ _ _ _ _ (hnp d), treeLineCount]
      have hlen : (sortedChildren sf ch).length = (keptChildren sf ch).length :=
        (sortEntries_perm _).length_eq
      have hcount : treeLineCountList sf (keptChildren sf ch) =
          treeLineCountList sf (sortedChildren sf ch) :=
        treeLineCountList_perm (sortEntries_perm _).symm
      rw [hcount, ← hlen]
      have hmem : ∀ x ∈ sortedChildren sf ch,
          sizeOf x ≤ n ∧ namesAll (fun c => c != '\n') x = true := by
        intro x hx
        constructor
        · have := sizeOf_lt_of_mem_sortedChildren nm hx
          omega
        · exact namesAllList_mem (namesAll_children hnames) (mem_sortedChildren_mem hx)
      revert hmem
      generalize sortedChildren sf ch = l
      intro hmem
      induction l with
      | nil => rw [treeLineCountList]; simp [renderSeq, countNL]
      | cons item rest ihl =>
        rcases hmem item (List.mem_cons_self item rest) with ⟨hisize, hinames⟩
        rw [treeLineCountList]
        simp only [renderSeq, List.length_cons]
        rw [countNL_append, countNL_append]
        have hline : countNL (pref ++ (if rest.isEmpty then sym.corner else sym.branch) ++
            item.name ++ (if item.isDirectory then "/" else "") ++ "\n") = 1 := by
          rw [countNL_append, countNL_append, countNL_append, countNL_append]
          rw [countNL_of_all hpref, countNL_of_all (namesAll_name hinames)]
          have h1 : countNL (if rest.isEmpty then sym.corner else sym.branch) = 0 := by
            by_cases hr : rest.isEmpty <;>
              simp only [hr, if_pos, Bool.false_eq_true, if_false] <;>
              first
                | exact countNL_of_all hc
                | exact countNL_of_all hb
          have h2 : countNL (if item.isDirectory then "/" else "") = 0 := by
            by_cases hd : item.isDirectory <;>
              simp only [hd, if_pos, Bool.false_eq_true, if_false] <;> rfl
          have h3 : countNL "\n" = 1 := rfl
          omega
        have hsub : countNL (if item.isDirectory then
            buildTree sf sym (-1) item (cp ++ "/" ++ item.name)
              (pref ++ (if rest.isEmpty then sym.space else sym.vertical))
              rest.isEmpty (d + 1)
          else (("" : String), ([] : List String))).1 = treeLineCount sf item := by
          by_cases hd : item.isDirectory
          · simp only [hd, if_pos]
            apply ih item hisize _ _ _ _ hinames
            rw [strAll_append]
            refine Bool.and_eq_true_iff.mpr ⟨hpref, ?_⟩
            by_cases hr : rest.isEmpty <;>
              simp only [hr, if_pos, Bool.false_eq_true, if_false]
            · exact hs
            · exact hv
          · simp only [hd, Bool.false_eq_true, if_false]
            cases item with
            | file s => rw [treeLineCount]; rfl
            | baddir s => rw [FSEntry.isDirectory] at hd; simp at hd
            | dir s c => rw [FSEntry.isDirectory] at hd; simp at hd
        have htail := ihl fun x hx => hmem x (List.mem_cons_of_mem item hx)
        rw [hline, hsub, htail]
        omega

theorem buildTree_chars_aux (sf : Bool) (sym : Symbols) (md : Int)
    (p : Char → Bool) (hslash : p '/' = true) (hnl : p '\n' = true)
    (hsym : symAll p sym = true) :
    ∀ (n : Nat) (e : FSEntry), sizeOf e ≤ n →
      ∀ (cp pref : String) (il : Bool) (d : Int),
        namesAll p e = true → strAll p pref = true →
        strAll p (buildTree sf sym md e cp pref il d).1 = true := by
  rcases symAll_split hsym with ⟨hv, hb, hc, hs⟩
  intro n
  induction n with
  | zero =>
    intro e he
    exact absurd he (by have := fsentry_sizeOf_pos e; omega)
  | succ n ih =>
    intro e he cp pref il d hnames hpref
    by_cases hprune : md ≠ -1 ∧ d > md
    · rw [buildTree_pruned _ _ _ _ _ _ _ _ hprune]
      rfl
    · cases e with
      | file s => rw [buildTree_file _ _ _ _ _ _ _ _ hprune]; rfl
      | baddir s => rw [buildTree_unreadable _ _ _ _ _ _ _ _ hprune]; rfl
      | dir nm ch =>
        rw [buildTree_dir _ _ _ _ _ _ _ _ _ hprune]
        have hmem : ∀ x ∈ sortedChildren sf ch,
            sizeOf x ≤ n ∧ namesAll p x = true := by
          intro x hx
          constructor
          · have := sizeOf_lt_of_mem_sortedChildren nm hx
            omega
          · exact namesAllList_mem (namesAll_children hnames) (mem_sortedChildren_mem hx)
        revert hmem
        generalize sortedChildren sf ch = l
        intro hmem
        induction l with
        | nil => rfl
        | cons item rest ihl =>
          rcases hmem item (List.mem_cons_self item rest) with ⟨hisize, hinames⟩
          simp only [renderSeq]
          rw [strAll_append, strAll_append]
          refine Bool.and_eq_true_iff.mpr ⟨Bool.and_eq_true_iff.mpr ⟨?_, ?_⟩, ?_⟩
          · rw [strAll_append, strAll_append, strAll_append, strAll_append]
            refine Bool.and_eq_true_iff.mpr
              ⟨Bool.and_eq_true_iff.mpr
                ⟨Bool.and_eq_true_iff.mpr
                  ⟨Bool.and_eq_true_iff.mpr ⟨hpref, ?_⟩, namesAll_name hinames⟩, ?_⟩, ?_⟩
            · by_cases hr : rest.isEmpty <;>
                simp only [hr, if_pos, Bool.false_eq_true, if_false]
              · exact hc
              · exact hb
            · by_cases hd : item.isDirectory <;>
                simp only [hd, if_pos, Bool.false_eq_true, if_false]
              · simp [strAll, hslash]
              · rfl
            · simp [strAll, hnl]
          · by_cases hd : item.isDirectory
            · simp only [hd, if_pos]
              apply ih item hisize _ _ _ _ hinames
              rw [strAll_append]
              refine Bool.and_eq_true_iff.mpr ⟨hpref, ?_⟩
              by_cases hr : rest.isEmpty <;>
                simp only [hr, if_pos, Bool.false_eq_true, if_false]
              · exact hs
              · exact hv
            · simp only [hd, Bool.false_eq_true, if_false]
              rfl
          · exact ihl fun x hx => hmem x (List.mem_cons_of_mem item hx)

/-- Just the entry lines of one sibling list, with no recursion output: what
a directory level contributes when every child subtree is depth-pruned. -/
def entryLinesOnly (sym : Symbols) (pref : String) : List FSEntry → String
  | [] => ""
  | e :: rest =>
    pref ++ (if rest.isEmpty then sym.corner else sym.branch) ++ e.name ++
      (if e.isDirectory then "/" else "") ++ "\n" ++ entryLinesOnly sym pref rest

/-- At `depth = maxDepth` (with a non-sentinel limit) a directory still emits
one line per surviving sorted entry, but every child recursion, happening at
`depth + 1 > maxDepth`, is pruned and contributes nothing — neither lines nor
error reports. -/
theorem buildTree_at_limit (sf : Bool) (sym : Symbols) (md : Int) (hmd : md ≥ 0)
    (nm : String) (ch : List FSEntry) (cp pref : String) (il : Bool) :
    buildTree sf sym md (.dir nm ch) cp pref il md =
      (entryLinesOnly sym pref (sortedChildren sf ch), []) := by
  have hnp : ¬(md ≠ -1 ∧ md > md) := by omega
  rw [buildTree_dir _ _ _ _ _ _ _ _ _ hnp]
  generalize sortedChildren sf ch = l
  induction l with
  | nil => rfl
  | cons item rest ihl =>
    simp only [renderSeq, entryLinesOnly]
    rw [ihl]
    have hsub : (if item.isDirectory then
        buildTree sf sym md item (cp ++ "/" ++ item.name)
          (pref ++ (if rest.isEmpty then sym.space else sym.vertical))
          rest.isEmpty (md + 1)
      else (("" : String), ([] : List String))) = ("", []) := by
      by_cases hd : item.isDirectory
      · simp only [hd, if_pos]
        exact buildTree_pruned _ _ _ _ _ _ _ _ (by omega)
      · simp only [hd, Bool.false_eq_true, if_false]
    rw [hsub]
    simp [String.append_assoc]

/-- C4: every emitted line is `prefix + connector + name` with a trailing `/`
exactly for directories; the connector is the corner glyph for the last entry
of the sorted, filtered sibling list and the branch glyph otherwise; and
recursion into a directory child uses `depth + 1` and the prefix extended by
the space glyph when that child is last, else the vertical glyph — at every
level, this is what `buildTree` emits for a readable directory. -/
theorem claim_C4_line_shape (sf : Bool) (sym : Symbols) (md : Int) (nm : String)
    (ch : List FSEntry) (cp pref : String) (il : Bool) (d : Int)
    (h : ¬(md ≠ -1 ∧ d > md)) :
    buildTree sf sym md (.dir nm ch) cp pref il d =
      renderSeq sf sym md cp pref d (sortedChildren sf ch) :=
  buildTree_dir sf sym md nm ch cp pref il d h

theorem claim_C4_witness :
    buildTree true unicodeSymbols (-1) (.dir "r" [.dir "a" [], .file "b"])
        "/r" "" true 0 =
      renderSeq true unicodeSymbols (-1) "/r" "" 0
        (sortedChildren true [.dir "a" [], .file "b"]) :=
  claim_C4_line_shape true unicodeSymbols (-1) "r" [.dir "a" [], .file "b"]
    "/r" "" true 0 (by decide)

/-- C9: for every `maxDepth ≤ -2` — any negative value other than the `-1`
sentinel — the depth guard already fires at depth 0, so the recursive builder
returns the empty string (and no error reports) whatever the directory
contains; only `-1` means unlimited. -/
theorem claim_C9_negative_maxDepth (sf : Bool) (sym : Symbols) (md : Int)
    (hmd : md ≤ -2) (e : FSEntry) (cp pref : String) (il : Bool) :
    buildTree sf sym md e cp pref il 0 = ("", []) :=
  buildTree_pruned sf sym md e cp pref il 0 ⟨by omega, by omega⟩

theorem claim_C9_witness :
    buildTree true unicodeSymbols (-2)
      (.dir "root" [.dir "child" [], .file "data.txt"]) "/root" "" true 0 =
      ("", []) :=
  claim_C9_negative_maxDepth true unicodeSymbols (-2) (by decide)
    (.dir "root" [.dir "child" [], .file "data.txt"]) "/root" "" true

/-- C10: the `isLast` parameter of the recursive builder never influences its
result — last-sibling rendering is decided per entry inside each call, so
calling with `isLast = true` and `isLast = false` (or any two values) yields
identical output for every path, prefix, depth and option values. -/
theorem claim_C10_isLast_irrelevant (sf : Bool) (sym : Symbols) (md : Int)
    (e : FSEntry) (cp pref : String) (d : Int) (il₁ il₂ : Bool) :
    buildTree sf sym md e cp pref il₁ d = buildTree sf sym md e cp pref il₂ d := by
  cases e <;> simp only [buildTree]

/-- C3: when enumerating a directory reached during recursion fails, the
builder does not abort and no exception escapes: the failure surfaces only on
the error side channel as a report for that path, the failed subtree
contributes zero lines, and all sibling and ancestor entries still render —
in particular a directory whose middle child of three is unreadable still
renders lines for the other two (and for the unreadable entry itself, whose
own subtree is empty). -/
theorem claim_C3_partial_failure :
    (∀ (sf : Bool) (sym : Symbols) (md : Int) (nm cp pref : String)
      (il : Bool) (d : Int), ¬(md ≠ -1 ∧ d > md) →
        buildTree sf sym md (.baddir nm) cp pref il d = ("", [cp]))
    ∧ buildTree true unicodeSymbols (-1)
        (.dir "root" [.dir "alpha" [], .baddir "beta", .dir "gamma" []])
        "/root" "" true 0 =
        ("├── alpha/\n├── beta/\n└── gamma/\n", ["/root/beta"]) := by
  constructor
  · intro sf sym md nm cp pref il d h
    exact buildTree_unreadable sf sym md nm cp pref il d h
  · simp +decide [buildTree, buildItems, sortedChildren, keptChildren, sortEntries,
      insertEntry, entryCmp, localeCompareEn, strCollate, weightsCmp, charPrimary,
      charTertiary, FSEntry.name, FSEntry.isDirectory]

theorem claim_C3_witness :
    buildTree false asciiSymbols (-1) (.baddir "locked") "/home/locked" "|   "
        false 2 = ("", ["/home/locked"]) :=
  claim_C3_partial_failure.1 false asciiSymbols (-1) "locked" "/home/locked"
    "|   " false 2 (by decide)

/-- C2: with a non-sentinel limit `maxDepth ≥ 0`, entries at depth equal to
`maxDepth` are still emitted while recursion beyond it is pruned: any call at
`depth > maxDepth` returns no lines, a readable directory visited exactly at
`depth = maxDepth` emits one line per surviving sorted entry with every child
subtree contributing nothing, and with the `-1` sentinel the depth counter is
irrelevant, i.e. no depth pruning occurs; in particular with `maxDepth = 0`
the root's immediate child directory is listed but its own children are not. -/
theorem claim_C2_depth_limit :
    (∀ (sf : Bool) (sym : Symbols) (md : Int), md ≥ 0 →
      ∀ (e : FSEntry) (cp pref : String) (il : Bool) (d : Int), d > md →
        buildTree sf sym md e cp pref il d = ("", []))
    ∧ (∀ (sf : Bool) (sym : Symbols) (md : Int), md ≥ 0 →
        ∀ (nm : String) (ch : List FSEntry) (cp pref : String) (il : Bool),
          buildTree sf sym md (.dir nm ch) cp pref il md =
            (entryLinesOnly sym pref (sortedChildren sf ch), []))
    ∧ (∀ (sf : Bool) (sym : Symbols) (e : FSEntry) (cp pref : String) (il : Bool)
        (d₁ d₂ : Int),
        buildTree sf sym (-1) e cp pref il d₁ = buildTree sf sym (-1) e cp pref il d₂)
    ∧ buildTree true unicodeSymbols 0
        (.dir "root" [.dir "child" [.dir "grandchild" [], .file "note.txt"]])
        "/root" "" true 0 =
        ("└── child/\n", []) := by
  refine ⟨?_, ?_, ?_, ?_⟩
  · intro sf sym md hmd e cp pref il d hd
    exact buildTree_pruned sf sym md e cp pref il d ⟨by omega, hd⟩
  · intro sf sym md hmd nm ch cp pref il
    exact buildTree_at_limit sf sym md hmd nm ch cp pref il
  · intro sf sym e cp pref il d₁ d₂
    exact buildTree_depth_irrel sf sym e cp pref il d₁ d₂
  · simp +decide [buildTree, buildItems, sortedChildren, keptChildren, sortEntries,
      insertEntry, entryCmp, localeCompareEn, strCollate, weightsCmp, charPrimary,
      charTertiary, FSEntry.name, FSEntry.isDirectory]

theorem claim_C2_witness :
    buildTree true unicodeSymbols 1
        (.dir "sub" [.dir "leafdir" [.file "hidden"]]) "/r/sub" "│   " false 1 =
      (entryLinesOnly unicodeSymbols "│   "
        (sortedChildren true [.dir "leafdir" [.file "hidden"]]), []) :=
  claim_C2_depth_limit.2.1 true unicodeSymbols 1 (by decide) "sub"
    [.dir "leafdir" [.file "hidden"]] "/r/sub" "│   " false

/-- C1: the displayed order of a directory's surviving entries is
deterministic and independent of the filesystem's native enumeration order —
two enumerations that are permutations of each other (with no two distinct
entries tying under the comparator) sort identically; the sorted list is
ordered by the comparator, i.e. all directories precede all files and entries
of the same kind are in "en" locale order; and the entries
b.txt (file), A (dir), a.txt (file), B (dir) with `showFiles = true` sort and
render in the order A/, B/, a.txt, b.txt. -/
theorem claim_C1_sort_order :
    (∀ (sf : Bool) (l₁ l₂ : List FSEntry), List.Perm l₁ l₂ →
      (∀ a ∈ l₁, ∀ b ∈ l₁, entryCmp a b = 0 → a = b) →
      sortedChildren sf l₁ = sortedChildren sf l₂)
    ∧ (∀ (sf : Bool) (l : List FSEntry),
        (sortedChildren sf l).Pairwise fun a b => entryCmp a b ≤ 0)
    ∧ sortedChildren true
        [.file "b.txt", .dir "A" [], .file "a.txt", .dir "B" []] =
        [.dir "A" [], .dir "B" [], .file "a.txt", .file "b.txt"]
    ∧ buildTree true unicodeSymbols (-1)
        (.dir "root" [.file "b.txt", .dir "A" [], .file "a.txt", .dir "B" []])
        "/root" "" true 0 =
        ("├── A/\n├── B/\n├── a.txt\n└── b.txt\n", []) := by
  refine ⟨?_, ?_, ?_, ?_⟩
  · intro sf l₁ l₂ hperm hkeys
    apply sorted_perm_unique
    · exact sortEntries_pairwise _
    · exact sortEntries_pairwise _
    · exact (sortEntries_perm _).trans ((hperm.filter _).trans (sortEntries_perm _).symm)
    · intro a ha b hb h
      exact hkeys a (mem_sortedChildren_mem ha) b (mem_sortedChildren_mem hb) h
  · intro sf l
    exact sortEntries_pairwise _
  · rfl
  · simp +decide [buildTree, buildItems, sortedChildren, keptChildren, sortEntries,
      insertEntry, entryCmp, localeCompareEn, strCollate, weightsCmp, charPrimary,
      charTertiary, FSEntry.name, FSEntry.isDirectory]

theorem claim_C1_witness :
    sortedChildren true [.file "b.txt", .dir "A" [], .file "a.txt", .dir "B" []] =
      sortedChildren true [.dir "A" [], .file "b.txt", .file "a.txt", .dir "B" []] := by
  apply claim_C1_sort_order.1
  · exact List.Perm.swap _ _ _
  · intro a ha b hb h
    simp only [List.mem_cons, List.not_mem_nil, or_false] at ha hb
    rcases ha with rfl | rfl | rfl | rfl <;> rcases hb with rfl | rfl | rfl | rfl <;>
      first
      | rfl
      | exact absurd h (by decide)

/-- The `my-app` tree of the documented end-to-end scenario, with children in
the enumeration order the scenario lists them. -/
def myAppRoot : FSEntry :=
  .dir "my-app"
    [ .dir "src"
        [ .dir "components" [.file "Header.js", .file "Footer.js"],
          .dir "utils" [],
          .file "index.js" ],
      .dir "public" [],
      .file "package.json",
      .file "README.md" ]

/-- The body of the documented sample output (the lines below the `my-app/`
header), in which `src/` precedes `public/` and `Header.js` precedes
`Footer.js`. -/
def documentedSampleBody : String :=
  "├── src/\n│   ├── components/\n│   │   ├── Header.js\n│   │   └── Footer.js\n│   ├── utils/\n│   └── index.js\n├── public/\n├── package.json\n└── README.md\n"

/-- C5 counterexample: rendering `my-app` with `showFiles = true`,
`useAscii = false` and unlimited depth does not reproduce the documented
sample — the sort step places `public/` before `src/` and `Footer.js` before
`Header.js`, so the rendered body differs from the documented one. -/
theorem claim_C5_counterexample :
    (buildTree true unicodeSymbols (-1) myAppRoot "/my-app" "" true 0).1 ≠
      documentedSampleBody := by
  have h : (buildTree true unicodeSymbols (-1) myAppRoot "/my-app" "" true 0).1 =
      "├── public/\n├── src/\n│   ├── components/\n│   │   ├── Footer.js\n│   │   └── Header.js\n│   ├── utils/\n│   └── index.js\n├── package.json\n└── README.md\n" := by
    simp +decide [myAppRoot, buildTree, buildItems, sortedChildren, keptChildren,
      sortEntries, insertEntry, entryCmp, localeCompareEn, strCollate, weightsCmp,
      charPrimary, charTertiary, FSEntry.name, FSEntry.isDirectory]
  rw [h]
  decide

/-- C5 (amended): rendering `my-app` with `showFiles = true`,
`useAscii = false` and unlimited depth produces the sorted output — with
directories before files at every level and names in "en" order, so `public/`
is listed before `src/` and `Footer.js` before `Header.js` — and reports no
errors. -/
theorem claim_C5_render :
    buildTree true unicodeSymbols (-1) myAppRoot "/my-app" "" true 0 =
      ("├── public/\n├── src/\n│   ├── components/\n│   │   ├── Footer.js\n│   │   └── Header.js\n│   ├── utils/\n│   └── index.js\n├── package.json\n└── README.md\n",
        []) := by
  simp +decide [myAppRoot, buildTree, buildItems, sortedChildren, keptChildren,
    sortEntries, insertEntry, entryCmp, localeCompareEn, strCollate, weightsCmp,
    charPrimary, charTertiary, FSEntry.name, FSEntry.isDirectory]

/-- C7: when `showFiles` is false every file entry is dropped and exactly the
directories are kept, so a directory containing only files emits zero lines
(and no errors); when `showFiles` is true all entries are kept (the sorted
list is a permutation of the enumeration). -/
theorem claim_C7_filter :
    (∀ (ch : List FSEntry) (x : FSEntry),
      x ∈ sortedChildren false ch ↔ x ∈ ch ∧ x.isDirectory = true)
    ∧ (∀ ch : List FSEntry, List.Perm (sortedChildren true ch) ch)
    ∧ (∀ (sym : Symbols) (md : Int) (nm : String) (ch : List FSEntry)
        (cp pref : String) (il : Bool) (d : Int),
        (∀ x ∈ ch, x.isDirectory = false) →
        buildTree false sym md (.dir nm ch) cp pref il d = ("", [])) := by
  refine ⟨?_, ?_, ?_⟩
  · intro ch x
    constructor
    · intro hx
      have h1 : x ∈ keptChildren false ch := (sortEntries_perm _).mem_iff.mp hx
      rcases List.mem_filter.mp h1 with ⟨h2, h3⟩
      simp only [Bool.not_false, if_pos] at h3
      exact ⟨h2, h3⟩
    · intro ⟨h2, h3⟩
      apply (sortEntries_perm _).mem_iff.mpr
      apply List.mem_filter.mpr
      refine ⟨h2, ?_⟩
      simp only [Bool.not_false, if_pos]
      exact h3
  · intro ch
    have hk : keptChildren true ch = ch := by
      rw [keptChildren]
      simp
    rw [sortedChildren, hk]
    exact sortEntries_perm ch
  · intro sym md nm ch cp pref il d hall
    have hkept : keptChildren false ch = [] := by
      rw [keptChildren, List.filter_eq_nil_iff]
      intro x hx
      simp only [Bool.not_false, if_pos]
      simp [hall x hx]
    by_cases hprune : md ≠ -1 ∧ d > md
    · exact buildTree_pruned _ _ _ _ _ _ _ _ hprune
    · rw [buildTree_dir _ _ _ _ _ _ _ _ _ hprune, sortedChildren, hkept]
      rfl

theorem claim_C7_witness :
    buildTree false unicodeSymbols (-1)
      (.dir "docs" [.file "a.md", .file "b.md", .file "c.md"]) "/docs" "" true 0 =
      ("", []) :=
  claim_C7_filter.2.2 unicodeSymbols (-1) "docs"
    [.file "a.md", .file "b.md", .file "c.md"] "/docs" "" true 0 (by decide)

/-- C6: the number of emitted lines for a readable directory's subtree equals
the number of entries surviving the filter step at that level plus the sum of
the emitted-line counts of each child's own subtree (files and unreadable
children contribute zero), whatever path, prefix and `isLast` arguments those
child renders receive — stated for the unlimited-depth render, with no
newline characters occurring in entry names, the glyphs or the prefixes. -/
theorem claim_C6_count_invariant (sf ua : Bool) (nm : String) (ch : List FSEntry)
    (cp pref : String) (il : Bool) (d : Int)
    (hnames : namesAll (fun c => c != '\n') (.dir nm ch) = true)
    (hpref : strAll (fun c => c != '\n') pref = true)
    (cp' pref' : String) (il' : Bool)
    (hpref' : strAll (fun c => c != '\n') pref' = true) :
    countNL (buildTree sf (treeSymbols ua) (-1) (.dir nm ch) cp pref il d).1 =
      (keptChildren sf ch).length +
        ((sortedChildren sf ch).map fun c =>
          countNL (buildTree sf (treeSymbols ua) (-1) c cp' pref' il' (d + 1)).1).sum := by
  have hsym : symAll (fun c => c != '\n') (treeSymbols ua) = true := by
    cases ua <;> decide
  have hmain := countNL_buildTree_aux sf (treeSymbols ua) hsym
    (sizeOf (FSEntry.dir nm ch)) (.dir nm ch) (Nat.le_refl _) cp pref il d hnames hpref
  rw [hmain, treeLineCount]
  congr 1
  rw [treeLineCountList_perm (sortEntries_perm (keptChildren sf ch)).symm,
    treeLineCountList_eq_sum]
  congr 1
  apply List.map_congr_left
  intro c hc
  have hcnames : namesAll (fun x => x != '\n') c = true :=
    namesAllList_mem (namesAll_children hnames) (mem_sortedChildren_mem hc)
  exact (countNL_buildTree_aux sf (treeSymbols ua) hsym (sizeOf c) c (Nat.le_refl _)
    cp' pref' il' (d + 1) hcnames hpref').symm

theorem claim_C6_witness :
    countNL (buildTree true (treeSymbols false) (-1)
        (.dir "r" [.dir "a" [.file "x"], .file "y"]) "/r" "" true 0).1 =
      (keptChildren true [.dir "a" [.file "x"], .file "y"]).length +
        ((sortedChildren true [.dir "a" [.file "x"], .file "y"]).map fun c =>
          countNL (buildTree true (treeSymbols false) (-1) c "/q" "" false
            ((0 : Int) + 1)).1).sum :=
  claim_C6_count_invariant true false "r" [.dir "a" [.file "x"], .file "y"]
    "/r" "" true 0 (by simp +decide [namesAll, namesAllList, strAll]) (by decide)
    "/q" "" false (by decide)

/-- The characters distinctive of the ASCII corner and branch connectors. -/
def asciiGlyphChars : List Char := ['\\', '|']

/-- The characters of the Unicode vertical, branch and corner connectors. -/
def unicodeGlyphChars : List Char := ['│', '├', '└', '─']

/-- C8: the four glyph strings are selected once from `useAscii` with exactly
the documented values and are the only glyphs the recursion ever draws with:
whenever the entry names avoid the opposite set's distinctive connector
characters, a Unicode render contains no ASCII connector character and an
ASCII render contains no Unicode connector character anywhere in its output. -/
theorem claim_C8_glyphs :
    treeSymbols false = unicodeSymbols
    ∧ unicodeSymbols =
        { vertical := "│   ", branch := "├── ", corner := "└── ", space := "    " }
    ∧ treeSymbols true = asciiSymbols
    ∧ asciiSymbols =
        { vertical := "|   ", branch := "|-- ", corner := "\\-- ", space := "    " }
    ∧ (∀ (sf : Bool) (md : Int) (e : FSEntry) (cp : String) (il : Bool) (d : Int),
        namesAll (fun c => !(asciiGlyphChars.contains c)) e = true →
        strAll (fun c => !(asciiGlyphChars.contains c))
          (buildTree sf (treeSymbols false) md e cp "" il d).1 = true)
    ∧ (∀ (sf : Bool) (md : Int) (e : FSEntry) (cp : String) (il : Bool) (d : Int),
        namesAll (fun c => !(unicodeGlyphChars.contains c)) e = true →
        strAll (fun c => !(unicodeGlyphChars.contains c))
          (buildTree sf (treeSymbols true) md e cp "" il d).1 = true) := by
  refine ⟨rfl, rfl, rfl, rfl, ?_, ?_⟩
  · intro sf md e cp il d hnames
    exact buildTree_chars_aux sf (treeSymbols false) md _ (by decide) (by decide)
      (by decide) (sizeOf e) e (Nat.le_refl _) cp "" il d hnames rfl
  · intro sf md e cp il d hnames
    exact buildTree_chars_aux sf (treeSymbols true) md _ (by decide) (by decide)
      (by decide) (sizeOf e) e (Nat.le_refl _) cp "" il d hnames rfl

theorem claim_C8_witness :
    strAll (fun c => !(asciiGlyphChars.contains c))
      (buildTree true (treeSymbols false) (-1)
        (.dir "r" [.file "a.txt", .dir "kids" []]) "/r" "" true 0).1 = true :=
  claim_C8_glyphs.2.2.2.2.1 true (-1) (.dir "r" [.file "a.txt", .dir "kids" []])
    "/r" true 0 (by simp +decide [namesAll, namesAllList, strAll])
